import Mathlib

/-!
Shallow embedding of `generate_images_json.py` (image-gallery manifest
generator).  The script scans a directory tree for image files, derives
tags from filenames, generates thumbnails, and writes a JSON manifest.
Pure string/list computations are translated directly; filesystem state
(existing thumbnail files) is threaded explicitly; the Pillow imaging
calls are abstracted by a per-file `decodable` flag (success of the whole
`try` block), since the imaging library is an opaque external collaborator.
-/

namespace GenImages

/-! ## Character and string helpers (models of Python `str` operations) -/

/-- ASCII decimal digit test; model of the regex class `\d` on the
    ASCII inputs this tool deals with. -/
def isDigitChar (c : Char) : Bool := '0' ≤ c && c ≤ '9'

/-- Whitespace characters recognised by Python `\s` and `str.strip()`
    (ASCII subset). -/
def isSpaceChar (c : Char) : Bool :=
  c = ' ' || c = '\t' || c = '\n' || c = '\r' || c = '\x0b' || c = '\x0c'

/-- Model of Python `str.lower()` (ASCII letters). -/
def toLowerChar (c : Char) : Char :=
  if 'A' ≤ c && c ≤ 'Z' then Char.ofNat (c.toNat + 32) else c

/-- Model of Python `str.lower()` on a whole string. -/
def lowerStr (s : String) : String := ⟨s.data.map toLowerChar⟩

/-- Model of Python `str.strip()` (drop leading and trailing whitespace). -/
def pyStrip (s : String) : String :=
  ⟨((s.data.dropWhile isSpaceChar).reverse.dropWhile isSpaceChar).reverse⟩

/-- Index of the last occurrence of `c` in `l`, if any. -/
def lastIdxOf (c : Char) (l : List Char) : Option Nat :=
  (List.range l.length).foldl
    (fun acc i => if l.get? i = some c then some i else acc) none

/-- Model of `os.path.splitext` on a bare filename (no directory
    separators): split at the last dot, unless every character before it
    is itself a dot (so `".hidden"` has no extension). -/
def splitext (s : String) : String × String :=
  match lastIdxOf '.' s.data with
  | none => (s, "")
  | some i =>
    if (s.data.take i).all (fun c => c = '.') then (s, "")
    else (⟨s.data.take i⟩, ⟨s.data.drop i⟩)

/-- Separator characters of the configured pattern
    `TAG_SEPARATORS = r"[_\-\s\.]+"`. -/
def isTagSep (c : Char) : Bool :=
  c = '_' || c = '-' || c = '.' || isSpaceChar c

mutual
/-- Model of `re.split(TAG_SEPARATORS, s)`: accumulate the current token
    (in reverse) until a separator run starts. -/
def reSplitTok (acc : List Char) : List Char → List String
  | [] => [⟨acc.reverse⟩]
  | c :: cs =>
    if isTagSep c then ⟨acc.reverse⟩ :: reSplitSep cs
    else reSplitTok (c :: acc) cs

/-- Model of `re.split(TAG_SEPARATORS, s)`: inside a separator run,
    skip further separators (the `+` in the pattern makes runs maximal). -/
def reSplitSep : List Char → List String
  | [] => [""]
  | c :: cs => if isTagSep c then reSplitSep cs else reSplitTok [c] cs
end

/-- Model of `re.split(TAG_SEPARATORS, s)` on a string.  Leading and
    trailing separator runs yield empty tokens, exactly as `re.split` does. -/
def reSplit (s : String) : List String := reSplitTok [] s.data

/-- Model of `re.fullmatch(r"\d+", s)` being a match: nonempty and
    all-digits. -/
def fullmatchDigits (s : String) : Bool :=
  !s.data.isEmpty && s.data.all isDigitChar

/-! ## Configuration (the CONFIG block of module-level constants) -/

/-- The CONFIG block of the script, as an explicit structure so that the
    module-level constants can be varied in statements.  `thumbMaxSize`
    and `thumbQuality` are carried for fidelity but only feed the opaque
    imaging calls. -/
structure Config where
  imageFolder : String
  thumbFolder : String
  thumbMaxSize : Nat
  thumbQuality : Nat
  thumbForceJpeg : Bool
  thumbOverwrite : Bool
  outputFile : String
  tagsFromFilename : Bool
  filterWeakTags : Bool
deriving DecidableEq, Repr

/-- Default values of the CONFIG constants in the script. -/
def defaultConfig : Config :=
  { imageFolder := "images"
    thumbFolder := "thumbs"
    thumbMaxSize := 480
    thumbQuality := 82
    thumbForceJpeg := true
    thumbOverwrite := false
    outputFile := "images.json"
    tagsFromFilename := true
    filterWeakTags := true }

/-- The set literal `SUPPORTED_EXTENSIONS` (line 54). -/
def SUPPORTED_EXTENSIONS : List String :=
  [".jpg", ".jpeg", ".png", ".gif", ".webp", ".avif"]

/-- The denylist set literal at line 80. -/
def weakTagWords : List String :=
  ["img", "image", "pic", "photo", "copy", "final", "new", "old", "tmp"]

/-! ## Tag derivation (`filename_to_tags`, lines 67-83) -/

/-- Body of the `for part in parts` loop (lines 71-82): strip, drop empty
    tokens, and under `FILTER_WEAK_TAGS` drop all-digit tokens, tokens of
    length at most one, and denylisted tokens; append survivors. -/
def tagStep (cfg : Config) (tags : List String) (part : String) : List String :=
  let part := pyStrip part
  if part = "" then tags
  else if cfg.filterWeakTags && fullmatchDigits part then tags
  else if cfg.filterWeakTags && decide (part.length ≤ 1) then tags
  else if cfg.filterWeakTags && weakTagWords.contains part then tags
  else tags ++ [part]

/-- Model of `filename_to_tags` (lines 67-83): strip the extension,
    lowercase, split on separator runs, and filter weak tokens. -/
def filename_to_tags (cfg : Config) (filename : String) : List String :=
  let name := (splitext filename).1
  let parts := reSplit (lowerStr name)
  parts.foldl (tagStep cfg) []

/-! ## UTC timestamp formatting (model of
    `datetime.fromtimestamp(mtime, tz=timezone.utc).strftime("%Y-%m-%dT%H:%M:%SZ")`,
    lines 179-180).  Timestamps are modelled as whole seconds plus a
    microsecond remainder since the Unix epoch; the proleptic Gregorian
    calendar conversion of `datetime` is embedded directly. -/

/-- Gregorian leap-year rule, as `datetime` applies it. -/
def isLeap (y : Nat) : Bool := (y % 4 == 0 && y % 100 != 0) || y % 400 == 0

/-- Number of days in year `y`. -/
def daysInYear (y : Nat) : Nat := if isLeap y then 366 else 365

/-- Length of month `m` (1-12) in a leap or common year. -/
def monthLen (leap : Bool) (m : Nat) : Nat :=
  if m = 2 then (if leap then 29 else 28)
  else if m = 4 ∨ m = 6 ∨ m = 9 ∨ m = 11 then 30
  else 31

/-- Days elapsed in the year before month `m` (1-12) begins. -/
def daysBeforeMonth (leap : Bool) : Nat → Nat
  | 0 => 0
  | 1 => 0
  | m + 2 => daysBeforeMonth leap (m + 1) + monthLen leap (m + 1)

/-- Days from 1970-01-01 to the start of the year `1970 + n`. -/
def daysBeforeYears : Nat → Nat
  | 0 => 0
  | n + 1 => daysBeforeYears n + daysInYear (1970 + n)

/-- Convert a day count since the epoch into (year, day-of-year).  The
    fuel argument only bounds the recursion; the caller passes the day
    count itself, which always suffices. -/
def civilAux : Nat → Nat → Nat → Nat × Nat
  | 0, y, d => (y, d)
  | fuel + 1, y, d =>
    if d < daysInYear y then (y, d) else civilAux fuel (y + 1) (d - daysInYear y)

/-- Convert a day-of-year into (month, day-of-month-minus-one). -/
def monthAux : Nat → Nat → Bool → Nat → Nat × Nat
  | 0, m, _, d => (m, d)
  | fuel + 1, m, leap, d =>
    if d < monthLen leap m then (m, d) else monthAux fuel (m + 1) leap (d - monthLen leap m)

/-- Model of `datetime.fromtimestamp(sec, tz=timezone.utc)` on a whole
    number of seconds: the UTC calendar components
    (year, month, day, hour, minute, second). -/
def epochToDate (sec : Nat) : Nat × Nat × Nat × Nat × Nat × Nat :=
  let days := sec / 86400
  let rem := sec % 86400
  let yd := civilAux days 1970 days
  let md := monthAux 11 1 (isLeap yd.1) yd.2
  (yd.1, md.1, md.2 + 1, rem / 3600, rem % 3600 / 60, rem % 60)

/-- The ASCII digit character for `k` (0-9). -/
def digitOf (k : Nat) : Char := Char.ofNat (48 + k)

/-- The `w` low decimal digits of `n`, most significant first. -/
def padDigits : Nat → Nat → List Char
  | 0, _ => []
  | w + 1, n => padDigits w (n / 10) ++ [digitOf (n % 10)]

/-- Zero-padded decimal rendering of `n` to width `w`, the model of
    `strftime` field formatting.  `datetime` only ever formats components
    that fit their field width (its years stop at 9999), so fixed-width
    rendering is exact on the library's domain. -/
def padNum (w n : Nat) : String := ⟨padDigits w n⟩

/-- Model of
    `datetime.fromtimestamp(sec, tz=timezone.utc).strftime("%Y-%m-%dT%H:%M:%SZ")`
    on a whole number of seconds since the epoch. -/
def formatUtc (sec : Nat) : String :=
  let c := epochToDate sec
  padNum 4 c.1 ++ "-" ++ padNum 2 c.2.1 ++ "-" ++ padNum 2 c.2.2.1 ++ "T" ++
    padNum 2 c.2.2.2.1 ++ ":" ++ padNum 2 c.2.2.2.2.1 ++ ":" ++ padNum 2 c.2.2.2.2.2 ++ "Z"

/-- Numeric value of an ASCII digit character. -/
def digitVal (c : Char) : Nat := c.toNat - 48

/-- Days since the epoch of the calendar date `(y, m, d)` (for
    `y ≥ 1970`); the inverse direction of `epochToDate`'s day split. -/
def daysSinceEpoch (y m d : Nat) : Nat :=
  daysBeforeYears (y - 1970) + daysBeforeMonth (isLeap y) m + (d - 1)

/-- Modelled from the spec: the downstream consumer that "parses the
    string back as UTC" (spec, Testable Properties).  Reads a
    `YYYY-MM-DDTHH:MM:SSZ` string and returns the seconds since the
    epoch of the instant it denotes. -/
def parseIsoUtc (s : String) : Option Nat :=
  match s.data with
  | [y1, y2, y3, y4, '-', m1, m2, '-', d1, d2, 'T',
     h1, h2, ':', n1, n2, ':', s1, s2, 'Z'] =>
    if [y1, y2, y3, y4, m1, m2, d1, d2, h1, h2, n1, n2, s1, s2].all isDigitChar then
      let y := ((digitVal y1 * 10 + digitVal y2) * 10 + digitVal y3) * 10 + digitVal y4
      let mo := digitVal m1 * 10 + digitVal m2
      let d := digitVal d1 * 10 + digitVal d2
      let h := digitVal h1 * 10 + digitVal h2
      let mi := digitVal n1 * 10 + digitVal n2
      let sc := digitVal s1 * 10 + digitVal s2
      some (daysSinceEpoch y mo d * 86400 + h * 3600 + mi * 60 + sc)
    else none
  | _ => none

/-! ## Filesystem model -/

/-- Per-file facts the script observes: the modification time returned by
    `os.path.getmtime` (split into whole seconds and a microsecond
    remainder), and whether the whole Pillow decode/resize/encode `try`
    block succeeds on this file (the imaging library is opaque). -/
structure FileInfo where
  mtimeSec : Nat
  mtimeMicro : Nat
  decodable : Bool
deriving DecidableEq, Repr

mutual
/-- A directory tree: files carry their `FileInfo`; directories carry
    named children in arbitrary (filesystem iteration) order. -/
inductive FsEntry where
  | file (info : FileInfo)
  | dir (children : FsChildren)

/-- The named children of a directory, in filesystem iteration order. -/
inductive FsChildren where
  | nil
  | cons (name : String) (entry : FsEntry) (rest : FsChildren)
end

/-- Build a children sequence from a list, preserving order. -/
def mkChildren : List (String × FsEntry) → FsChildren
  | [] => .nil
  | (n, e) :: rest => .cons n e (mkChildren rest)

/-- View a children sequence as a list of named entries. -/
def FsChildren.toList : FsChildren → List (String × FsEntry)
  | .nil => []
  | .cons n e rest => (n, e) :: rest.toList

mutual
/-- Height of a tree (used only as recursion fuel for the walk). -/
def entryDepth : FsEntry → Nat
  | .file _ => 0
  | .dir children => childrenDepth children + 1

/-- Height of a children sequence. -/
def childrenDepth : FsChildren → Nat
  | .nil => 0
  | .cons _ e rest => max (entryDepth e) (childrenDepth rest)
end

/-- Lexicographic comparison of character sequences by code point — the
    order Python's `sorted` uses on `str`. -/
def strLeAux : List Char → List Char → Bool
  | [], _ => true
  | _ :: _, [] => false
  | a :: as, b :: bs =>
    if a.toNat = b.toNat then strLeAux as bs else decide (a.toNat < b.toNat)

/-- Lexicographic (code-point) order on strings, as Python compares them. -/
def strLe (a b : String) : Bool := strLeAux a.data b.data

/-- Python's in-place `list.sort()` / `sorted()` on names, applied to
    `dirs` and `files` by `scan_and_generate` (lines 139-140). -/
def sortPairs {α : Type} (l : List (String × α)) : List (String × α) :=
  l.insertionSort (fun a b => strLe a.1 b.1 = true)

/-- The plain files among a directory's children (the `files` list that
    `os.walk` yields for that directory). -/
def childFiles (l : List (String × FsEntry)) : List (String × FileInfo) :=
  l.filterMap fun p => match p.2 with | .file i => some (p.1, i) | .dir _ => none

/-- The subdirectories among a directory's children (the `dirs` list that
    `os.walk` yields for that directory). -/
def childDirs (l : List (String × FsEntry)) : List (String × FsEntry) :=
  l.filterMap fun p => match p.2 with | .dir _ => some p | .file _ => none

/-- Does a filename's extension pass the allow-list test of line 141-142?
    (`os.path.splitext(filename)[1].lower() in SUPPORTED_EXTENSIONS`). -/
def extSupported (filename : String) : Bool :=
  SUPPORTED_EXTENSIONS.contains (lowerStr (splitext filename).2)

/-- Model of the file-collection loop over `os.walk` (lines 137-143):
    depth-first, the current directory's files (sorted, filtered to
    supported extensions) first, then the subdirectories in sorted order.
    Each collected file is reported as (subdirectory components relative
    to the root, filename, file facts).  The fuel argument only bounds
    the recursion depth; `walkFiles` passes the tree's height, which
    always suffices. -/
def walkAux : Nat → List String → FsEntry → List (List String × String × FileInfo)
  | 0, _, _ => []
  | _ + 1, _, .file _ => []
  | fuel + 1, path, .dir children =>
    ((sortPairs (childFiles children.toList)).filter (fun p => extSupported p.1)).map
      (fun p => (path, p.1, p.2))
    ++ (sortPairs (childDirs children.toList)).flatMap
      (fun p => walkAux fuel (path ++ [p.1]) p.2)

/-- The `all_files` list (line 137) collected for a root directory with
    the given children. -/
def walkFiles (children : FsChildren) :
    List (List String × String × FileInfo) :=
  walkAux (entryDepth (FsEntry.dir children)) [] (.dir children)

/-! ## Path construction -/

/-- Does the string end in a path separator? -/
def endsSlash (s : String) : Bool := s.data.getLast? = some '/'

/-- Model of the two-argument `os.path.join` on POSIX: an absolute second
    component replaces the first; an empty or separator-terminated first
    component gets no extra separator. -/
def pyJoin (a b : String) : String :=
  if b.data.head? = some '/' then b
  else if a = "" then b
  else if endsSlash a then a ++ b
  else a ++ "/" ++ b

/-- Path of the directory `comps` below under `folder` (the `root`
    strings that `os.walk` yields). -/
def joinAll (folder : String) (comps : List String) : String :=
  comps.foldl pyJoin folder

/-- Model of `src_path.replace("\\", "/")` (line 151). -/
def replaceBS (s : String) : String :=
  ⟨s.data.map fun c => if c = '\\' then '/' else c⟩

/-- Components joined with `/` separators. -/
def joinComps : List String → String
  | [] => ""
  | [c] => c
  | c :: rest => c ++ "/" ++ joinComps rest

/-- Model of `os.path.relpath(root, folder)` for the `root` values
    produced by `os.walk(folder)`: `"."` at the top, otherwise the
    relative components joined by `/`. -/
def relSubdirOf (comps : List String) : String :=
  if comps = [] then "." else joinComps comps

/-- The `thumb_ext` computation of line 155: `.jpg` when
    `THUMB_FORCE_JPEG` is set, otherwise the original extension
    lowercased. -/
def thumbExtOf (cfg : Config) (filename : String) : String :=
  if cfg.thumbForceJpeg then ".jpg" else lowerStr (splitext filename).2

/-- The `thumb_name` computation of line 156: the stem with the thumbnail
    extension. -/
def thumbNameOf (cfg : Config) (filename : String) : String :=
  (splitext filename).1 ++ thumbExtOf cfg filename

/-- The `thumb_path` computation of lines 157-161: mirror the
    subdirectory structure under `THUMB_FOLDER`. -/
def thumbPathOf (cfg : Config) (comps : List String) (filename : String) : String :=
  if relSubdirOf comps = "." then pyJoin cfg.thumbFolder (thumbNameOf cfg filename)
  else pyJoin (pyJoin cfg.thumbFolder (relSubdirOf comps)) (thumbNameOf cfg filename)

/-! ## Thumbnail generation (`make_thumbnail`, lines 86-123) -/

/-- Model of `make_thumbnail`: the paths existing on disk are threaded as
    a list.  If the thumbnail already exists and `THUMB_OVERWRITE` is
    off, return `False` without touching the disk (lines 90-91).
    Otherwise run the Pillow pipeline: on success the thumbnail file now
    exists and the function returns `True` (line 119); on any exception
    the handler at lines 121-123 logs and returns `False`, leaving the
    disk unchanged.  The return type is `Bool` because the Python
    function only ever returns `True` or `False`. -/
def make_thumbnail (cfg : Config) (disk : List String) (decodable : Bool)
    (thumbPath : String) : Bool × List String :=
  if !cfg.thumbOverwrite && disk.contains thumbPath then (false, disk)
  else if decodable then (true, thumbPath :: disk)
  else (false, disk)

/-- The three per-file outcomes the caller distinguishes. -/
inductive ThumbOutcome where
  | created
  | skipped
  | errored
deriving DecidableEq, Repr

/-- The classification at lines 171-176: `if result is True`, `elif
    result is False`, `else`.  Since `make_thumbnail` returns a `Bool`,
    the `errored` branch is unreachable. -/
def classifyResult (r : Bool) : ThumbOutcome :=
  if r = true then .created else if r = false then .skipped else .errored

/-! ## The scan (`scan_and_generate`, lines 126-193) -/

/-- One manifest entry (the dict literal at lines 184-189). -/
structure Record where
  file : String
  thumb : String
  date : String
  tags : List String
deriving DecidableEq, Repr

/-- The record built for one collected file (lines 149-189, the pure
    part): source path, mirrored thumbnail path, formatted mtime, tags. -/
def recordOf (cfg : Config) (comps : List String) (filename : String)
    (info : FileInfo) : Record :=
  let srcPath := pyJoin (joinAll cfg.imageFolder comps) filename
  { file := replaceBS srcPath
    thumb := replaceBS (thumbPathOf cfg comps filename)
    date := formatUtc info.mtimeSec
    tags := if cfg.tagsFromFilename then filename_to_tags cfg filename else [] }

/-- The mutable state of the loop in `scan_and_generate`: the `entries`
    accumulator, the three counters, and the on-disk thumbnail paths. -/
structure ScanState where
  entries : List Record
  created : Nat
  skipped : Nat
  errors : Nat
  disk : List String
deriving DecidableEq, Repr

/-- One iteration of the `for i, (root, filename) in enumerate(all_files)`
    loop (lines 149-189): build the thumbnail, bump the matching counter,
    and append the record. -/
def stepFile (cfg : Config) (st : ScanState)
    (f : List String × String × FileInfo) : ScanState :=
  let res := make_thumbnail cfg st.disk f.2.2.decodable (thumbPathOf cfg f.1 f.2.1)
  let r := recordOf cfg f.1 f.2.1 f.2.2
  match classifyResult res.1 with
  | .created =>
    { st with created := st.created + 1, disk := res.2, entries := st.entries ++ [r] }
  | .skipped =>
    { st with skipped := st.skipped + 1, disk := res.2, entries := st.entries ++ [r] }
  | .errored =>
    { st with errors := st.errors + 1, disk := res.2, entries := st.entries ++ [r] }

/-- Model of `scan_and_generate`: `root = none` models a missing (or
    non-directory) `IMAGE_FOLDER`, for which the function reports the
    problem and returns the empty entry list (lines 132-134); otherwise
    it folds the per-file step over the collected files. -/
def scan_and_generate (cfg : Config) (root : Option FsChildren)
    (disk : List String) : ScanState :=
  match root with
  | none => ⟨[], 0, 0, 0, disk⟩
  | some children => (walkFiles children).foldl (stepFile cfg) ⟨[], 0, 0, 0, disk⟩

/-! ## Manifest serialization and `main` (lines 196-227) -/

/-- A minimal JSON value AST for the manifest: objects are ordered
    key-value lists, matching the insertion order `json.dump` preserves;
    the values this manifest ever holds are strings and arrays of
    strings. -/
inductive JVal where
  | jstr (s : String)
  | jarr (elems : List String)
deriving DecidableEq, Repr

/-- The JSON object written for one record, with the field order of the
    dict literal at lines 184-189. -/
def recordPairs (r : Record) : List (String × JVal) :=
  [("file", .jstr r.file), ("thumb", .jstr r.thumb),
   ("date", .jstr r.date), ("tags", .jarr r.tags)]

/-- The console messages that matter to the stated contracts. -/
inductive RunMsg where
  | folderNotFound (folder : String)
  | foundCount (n : Nat)
  | noImagesFound
  | savedManifest (path : String) (count : Nat)
deriving DecidableEq, Repr

/-- The observable result of one run of `main`: the scan state, the
    manifest file content after the run (`none` if it never existed), and
    the relevant console messages. -/
structure RunResult where
  scan : ScanState
  manifestAfter : Option (List (List (String × JVal)))
  msgs : List RunMsg
deriving DecidableEq, Repr

/-- Model of `main` (lines 196-227): run the scan; if no entries were
    produced, report "Картинки не найдены." and return leaving the
    manifest file untouched (lines 207-209); otherwise serialize the
    entries over the previous manifest content (lines 219-220). -/
def main (cfg : Config) (root : Option FsChildren)
    (disk : List String)
    (priorManifest : Option (List (List (String × JVal)))) : RunResult :=
  let st := scan_and_generate cfg root disk
  let scanMsg : List RunMsg :=
    match root with
    | none => [.folderNotFound cfg.imageFolder]
    | some children => [.foundCount (walkFiles children).length]
  if st.entries.isEmpty then
    { scan := st, manifestAfter := priorManifest, msgs := scanMsg ++ [.noImagesFound] }
  else
    { scan := st
      manifestAfter := some (st.entries.map recordPairs)
      msgs := scanMsg ++ [.savedManifest cfg.outputFile st.entries.length] }

/-! ## Spec-side definitions and concrete example inputs -/

/-- Formalisation of the spec's wording for the thumbnail path (used
    only to compare against the code's `thumbPathOf`): the thumbnail
    root, then the file's subdirectory components mirrored, then the same
    base filename with the extension replaced by `.jpg` when force-JPEG
    is enabled and kept as the original extension lowercased otherwise. -/
def specThumbPath (cfg : Config) (comps : List String) (filename : String) : String :=
  joinComps (cfg.thumbFolder ::
    (comps ++ [(splitext filename).1 ++
      (if cfg.thumbForceJpeg then ".jpg" else lowerStr (splitext filename).2)]))

/-- A well-formed path component: nonempty and free of separator and
    backslash characters (what a real filesystem hands `os.walk`). -/
def pathCleanName (s : String) : Prop :=
  s ≠ "" ∧ ∀ c ∈ s.data, c ≠ '/' ∧ c ≠ '\\'

instance (s : String) : Decidable (pathCleanName s) := by
  unfold pathCleanName
  exact instDecidableAnd

/-- Example root: files `b.png`, `a.png`, `a.txt`, in one filesystem
    iteration order. -/
def treeAlpha : FsChildren := mkChildren
  [("b.png", .file ⟨0, 0, true⟩), ("a.png", .file ⟨0, 0, true⟩),
   ("a.txt", .file ⟨0, 0, true⟩)]

/-- The same root contents handed over in the reverse iteration order. -/
def treeAlphaPerm : FsChildren := mkChildren
  [("a.txt", .file ⟨0, 0, true⟩), ("a.png", .file ⟨0, 0, true⟩),
   ("b.png", .file ⟨0, 0, true⟩)]

/-- Example root with one corrupted (undecodable) image between two valid
    ones. -/
def treeWithCorrupt : FsChildren := mkChildren
  [("good1.jpg", .file ⟨100, 0, true⟩), ("bad.jpg", .file ⟨200, 0, false⟩),
   ("good2.png", .file ⟨300, 0, true⟩)]

/-! ## Lemmas about the lexicographic comparison and the sort -/

theorem strLeAux_total : ∀ as bs, strLeAux as bs = true ∨ strLeAux bs as = true := by
  intro as
  induction as with
  | nil => intro bs; left; rfl
  | cons a as ih =>
    intro bs
    cases bs with
    | nil => right; rfl
    | cons b bs =>
      simp only [strLeAux]
      rcases Nat.lt_trichotomy a.toNat b.toNat with h | h | h
      · left
        rw [if_neg (by omega), decide_eq_true h]
      · rcases ih bs with h2 | h2
        · left; rw [if_pos h]; exact h2
        · right; rw [if_pos h.symm]; exact h2
      · right
        rw [if_neg (by omega), decide_eq_true h]

theorem strLeAux_trans :
    ∀ as bs cs, strLeAux as bs = true → strLeAux bs cs = true →
      strLeAux as cs = true := by
  intro as
  induction as with
  | nil => intro bs cs _ _; rfl
  | cons a as ih =>
    intro bs cs hab hbc
    cases bs with
    | nil => simp [strLeAux] at hab
    | cons b bs =>
      cases cs with
      | nil => simp [strLeAux] at hbc
      | cons c cs =>
        simp only [strLeAux] at hab hbc ⊢
        by_cases hab1 : a.toNat = b.toNat
        · rw [if_pos hab1] at hab
          by_cases hbc1 : b.toNat = c.toNat
          · rw [if_pos hbc1] at hbc
            rw [hab1, hbc1] at *
            rw [if_pos rfl]
            exact ih bs cs hab hbc
          · rw [if_neg hbc1, decide_eq_true_eq] at hbc
            rw [if_neg (by omega), decide_eq_true_eq]
            omega
        · rw [if_neg hab1, decide_eq_true_eq] at hab
          by_cases hbc1 : b.toNat = c.toNat
          · rw [if_neg (by omega), decide_eq_true_eq]
            omega
          · rw [if_neg hbc1, decide_eq_true_eq] at hbc
            rw [if_neg (by omega), decide_eq_true_eq]
            omega

theorem strLe_total (a b : String) : strLe a b = true ∨ strLe b a = true :=
  strLeAux_total a.data b.data

theorem strLe_trans {a b c : String} (h1 : strLe a b = true) (h2 : strLe b c = true) :
    strLe a c = true :=
  strLeAux_trans a.data b.data c.data h1 h2

/-- The name sequence of a sorted pair list is lexicographically
    nondecreasing: every name is `strLe`-below every later one. -/
theorem sortPairs_sorted {α : Type} (l : List (String × α)) :
    List.Pairwise (fun a b => strLe a.1 b.1 = true) (sortPairs l) := by
  haveI : IsTotal (String × α) (fun a b => strLe a.1 b.1 = true) :=
    ⟨fun a b => strLe_total a.1 b.1⟩
  haveI : IsTrans (String × α) (fun a b => strLe a.1 b.1 = true) :=
    ⟨fun _ _ _ h1 h2 => strLe_trans h1 h2⟩
  exact List.sorted_insertionSort _ l

/-- Sorting the children does not change which children there are. -/
theorem mem_sortPairs {α : Type} {l : List (String × α)} {p : String × α} :
    p ∈ sortPairs l ↔ p ∈ l :=
  List.mem_insertionSort _

/-! ## Lemmas about the walk -/

/-- Every file the walk collects passed the extension allow-list test of
    lines 141-142. -/
theorem walkAux_mem_supported :
    ∀ (fuel : Nat) (path : List String) (t : FsEntry) (f : List String × String × FileInfo),
      f ∈ walkAux fuel path t → extSupported f.2.1 = true := by
  intro fuel
  induction fuel with
  | zero => intro path t f h; simp [walkAux] at h
  | succ fuel ih =>
    intro path t f h
    cases t with
    | file info => simp [walkAux] at h
    | dir children =>
      simp only [walkAux, List.mem_append, List.mem_map, List.mem_filter,
        List.mem_flatMap] at h
      rcases h with ⟨p, ⟨_, hsup⟩, rfl⟩ | ⟨p, _, hrec⟩
      · exact hsup
      · exact ih _ _ f hrec

/-- Every file the walk collects is a file of the tree: its subdirectory
    components extend the path prefix the walk was started with. -/
theorem walkAux_mem_prefix :
    ∀ (fuel : Nat) (path : List String) (t : FsEntry) (f : List String × String × FileInfo),
      f ∈ walkAux fuel path t → path <+: f.1 := by
  intro fuel
  induction fuel with
  | zero => intro path t f h; simp [walkAux] at h
  | succ fuel ih =>
    intro path t f h
    cases t with
    | file info => simp [walkAux] at h
    | dir children =>
      simp only [walkAux, List.mem_append, List.mem_map, List.mem_filter,
        List.mem_flatMap] at h
      rcases h with ⟨p, _, rfl⟩ | ⟨p, _, hrec⟩
      · exact List.prefix_refl path
      · exact ((List.prefix_append path [p.1]).trans (ih _ _ f hrec))

/-! ## Lemmas about the scan loop -/

/-- One loop iteration always appends exactly one record, whatever the
    thumbnail outcome was. -/
theorem stepFile_entries (cfg : Config) (st : ScanState)
    (f : List String × String × FileInfo) :
    (stepFile cfg st f).entries = st.entries ++ [recordOf cfg f.1 f.2.1 f.2.2] := by
  cases hc : classifyResult
      (make_thumbnail cfg st.disk f.2.2.decodable (thumbPathOf cfg f.1 f.2.1)).1 <;>
    simp [stepFile, hc]

/-- The entries accumulated by the loop are exactly one record per
    collected file, in collection order; the thumbnail outcomes and the
    disk state never influence them. -/
theorem foldl_stepFile_entries (cfg : Config) :
    ∀ (files : List (List String × String × FileInfo)) (st : ScanState),
      (files.foldl (stepFile cfg) st).entries
        = st.entries ++ files.map (fun f => recordOf cfg f.1 f.2.1 f.2.2) := by
  intro files
  induction files with
  | nil => intro st; simp
  | cons f files ih =>
    intro st
    simp only [List.foldl_cons, List.map_cons]
    rw [ih, stepFile_entries]
    simp

/-- The records produced by a scan of an existing root, one per collected
    file, in walk order. -/
theorem scan_entries_eq (cfg : Config) (children : FsChildren) (disk : List String) :
    (scan_and_generate cfg (some children) disk).entries
      = (walkFiles children).map (fun f => recordOf cfg f.1 f.2.1 f.2.2) := by
  simp [scan_and_generate, foldl_stepFile_entries]

/-- `make_thumbnail` only ever returns a boolean, so the classification
    at lines 171-176 can never reach its `else` branch: no outcome is
    ever `errored`. -/
theorem classifyResult_ne_errored (r : Bool) : classifyResult r ≠ .errored := by
  cases r <;> decide

/-- One loop iteration never increments the `errors` counter (the
    `else: errors += 1` branch at line 176 is unreachable). -/
theorem stepFile_errors (cfg : Config) (st : ScanState)
    (f : List String × String × FileInfo) :
    (stepFile cfg st f).errors = st.errors := by
  cases hb : (make_thumbnail cfg st.disk f.2.2.decodable (thumbPathOf cfg f.1 f.2.1)).1 <;>
    simp [stepFile, classifyResult, hb]

/-- Over a whole run the `errors` counter keeps its initial value: the
    scan can never report a nonzero error count. -/
theorem foldl_stepFile_errors (cfg : Config) :
    ∀ (files : List (List String × String × FileInfo)) (st : ScanState),
      (files.foldl (stepFile cfg) st).errors = st.errors := by
  intro files
  induction files with
  | nil => intro st; rfl
  | cons f files ih => intro st; rw [List.foldl_cons, ih, stepFile_errors]

/-- When a file's thumbnail is already on disk and overwrite is off,
    `make_thumbnail` is a no-op returning `False` (lines 90-91). -/
theorem make_thumbnail_skip (cfg : Config) (disk : List String) (dec : Bool)
    (tp : String) (hov : cfg.thumbOverwrite = false)
    (hex : disk.contains tp = true) :
    make_thumbnail cfg disk dec tp = (false, disk) := by
  unfold make_thumbnail
  rw [hov, hex]
  rfl

/-- A run over files whose thumbnails all exist, with overwrite off,
    creates nothing, skips every file, and leaves the disk unchanged. -/
theorem foldl_stepFile_all_skipped (cfg : Config) (hov : cfg.thumbOverwrite = false) :
    ∀ (files : List (List String × String × FileInfo)) (st : ScanState),
      (∀ f ∈ files, st.disk.contains (thumbPathOf cfg f.1 f.2.1) = true) →
      (files.foldl (stepFile cfg) st).created = st.created ∧
      (files.foldl (stepFile cfg) st).skipped = st.skipped + files.length ∧
      (files.foldl (stepFile cfg) st).disk = st.disk := by
  intro files
  induction files with
  | nil => intro st _; exact ⟨rfl, rfl, rfl⟩
  | cons f files ih =>
    intro st hall
    have hex := hall f (List.mem_cons_self f files)
    have hstep : stepFile cfg st f =
        { st with skipped := st.skipped + 1,
                  entries := st.entries ++ [recordOf cfg f.1 f.2.1 f.2.2] } := by
      simp [stepFile, make_thumbnail_skip cfg st.disk f.2.2.decodable _ hov hex,
        classifyResult]
    rw [List.foldl_cons, hstep]
    have := ih { st with skipped := st.skipped + 1,
                         entries := st.entries ++ [recordOf cfg f.1 f.2.1 f.2.2] }
      (fun g hg => hall g (List.mem_cons_of_mem f hg))
    simpa [Nat.add_assoc, Nat.add_comm 1 files.length] using this

/-! ## Nonemptiness of the thumbnail path -/

/-- A string whose character list is empty is the empty string. -/
theorem str_of_data_nil (s : String) (h : s.data = []) : s = "" := String.ext h

/-- Appending a nonempty extension yields a nonempty file name. -/
theorem append_ne_empty_right (a b : String) (hb : b ≠ "") : a ++ b ≠ "" := by
  have hbd : b.data ≠ [] := fun h => hb (str_of_data_nil b h)
  intro h
  have hd : a.data ++ b.data = [] := by
    have h0 := congrArg String.data h
    rwa [String.data_append] at h0
  exact hbd (List.append_eq_nil.mp hd).2

/-- Joining onto a nonempty final component yields a nonempty path. -/
theorem pyJoin_ne_empty (a b : String) (hb : b ≠ "") : pyJoin a b ≠ "" := by
  unfold pyJoin
  by_cases h1 : b.data.head? = some '/'
  · rw [if_pos h1]; exact hb
  · rw [if_neg h1]
    by_cases h2 : a = ""
    · rw [if_pos h2]; exact hb
    · rw [if_neg h2]
      by_cases h3 : endsSlash a = true
      · rw [if_pos h3]; exact append_ne_empty_right a b hb
      · rw [if_neg h3]; exact append_ne_empty_right (a ++ "/") b hb

/-- Replacing backslashes keeps a string nonempty. -/
theorem replaceBS_ne_empty (s : String) (hs : s ≠ "") : replaceBS s ≠ "" := by
  have hd : s.data ≠ [] := fun h => hs (str_of_data_nil s h)
  intro h
  apply hd
  have h0 : s.data.map (fun c => if c = '\\' then '/' else c) = [] :=
    congrArg String.data h
  exact List.map_eq_nil_iff.mp h0

/-- The thumbnail name always carries a nonempty extension for files that
    passed the extension allow-list, so it is nonempty. -/
theorem thumbNameOf_ne_empty (cfg : Config) (filename : String)
    (hsup : extSupported filename = true) :
    thumbNameOf cfg filename ≠ "" := by
  have hext : thumbExtOf cfg filename ≠ "" := by
    unfold thumbExtOf
    split
    · decide
    · have hmem : lowerStr (splitext filename).2 ∈ SUPPORTED_EXTENSIONS := by
        have h0 := hsup
        unfold extSupported at h0
        simpa using h0
      have hne : ∀ e ∈ SUPPORTED_EXTENSIONS, e ≠ "" := by decide
      exact hne _ hmem
  exact append_ne_empty_right _ _ hext

/-- The thumbnail path derived for a file that passed the extension
    allow-list is never the empty string. -/
theorem thumbPathOf_ne_empty (cfg : Config) (comps : List String) (filename : String)
    (hsup : extSupported filename = true) :
    thumbPathOf cfg comps filename ≠ "" := by
  unfold thumbPathOf
  split <;> exact pyJoin_ne_empty _ _ (thumbNameOf_ne_empty cfg filename hsup)

/-! ## Lemmas about path construction -/

theorem str_data_ne_nil {s : String} (hs : s ≠ "") : s.data ≠ [] :=
  fun h => hs (String.ext h)

theorem clean_head {s : String} (h : pathCleanName s) : s.data.head? ≠ some '/' := by
  intro hh
  have hmem : '/' ∈ s.data := List.mem_of_mem_head? (by rw [hh]; rfl)
  exact ((h.2 '/' hmem).1 rfl)

theorem clean_last {s : String} (h : pathCleanName s) : s.data.getLast? ≠ some '/' := by
  intro hh
  have hmem : '/' ∈ s.data := List.mem_of_mem_getLast? (by rw [hh]; rfl)
  exact ((h.2 '/' hmem).1 rfl)

/-- On clean components `os.path.join` is plain concatenation with one
    separator. -/
theorem pyJoin_clean (a b : String) (ha : a ≠ "")
    (haLast : a.data.getLast? ≠ some '/') (hbHead : b.data.head? ≠ some '/') :
    pyJoin a b = a ++ "/" ++ b := by
  unfold pyJoin
  rw [if_neg hbHead, if_neg ha, if_neg (by simp [endsSlash, haLast])]

theorem joinComps_clean : ∀ comps : List String, comps ≠ [] →
    (∀ s ∈ comps, pathCleanName s) →
    joinComps comps ≠ ""
    ∧ (joinComps comps).data.head? ≠ some '/'
    ∧ (joinComps comps).data.getLast? ≠ some '/' := by
  intro comps
  induction comps with
  | nil => intro h; exact absurd rfl h
  | cons c rest ih =>
    intro _ hclean
    have hc : pathCleanName c := hclean c (List.mem_cons_self c rest)
    cases rest with
    | nil => exact ⟨hc.1, clean_head hc, clean_last hc⟩
    | cons r rs =>
      have hrest := ih (by simp) (fun s hs => hclean s (List.mem_cons_of_mem c hs))
      have hjoin : joinComps (c :: r :: rs) = c ++ "/" ++ joinComps (r :: rs) := rfl
      have hdata : (c ++ "/" ++ joinComps (r :: rs)).data
          = (c.data ++ "/".data) ++ (joinComps (r :: rs)).data := by
        rw [String.data_append, String.data_append]
      refine ⟨?_, ?_, ?_⟩
      · rw [hjoin]
        exact append_ne_empty_right _ _ hrest.1
      · rw [hjoin, hdata, List.head?_append_of_ne_nil _
          (by simp [str_data_ne_nil hc.1]), List.head?_append_of_ne_nil _
          (str_data_ne_nil hc.1)]
        exact clean_head hc
      · rw [hjoin, hdata, List.getLast?_append_of_ne_nil _
          (str_data_ne_nil hrest.1)]
        exact hrest.2.2

theorem joinComps_ne_dot : ∀ comps : List String, comps ≠ [] →
    (∀ s ∈ comps, pathCleanName s ∧ s ≠ ".") → joinComps comps ≠ "." := by
  intro comps
  induction comps with
  | nil => intro h; exact absurd rfl h
  | cons c rest _ =>
    intro _ hclean
    have hc := hclean c (List.mem_cons_self c rest)
    cases rest with
    | nil => exact hc.2
    | cons r rs =>
      intro heq
      have hslash : '/' ∈ (joinComps (c :: r :: rs)).data := by
        have hjoin : joinComps (c :: r :: rs) = c ++ "/" ++ joinComps (r :: rs) := rfl
        rw [hjoin, String.data_append, String.data_append]
        exact List.mem_append_left _ (List.mem_append_right _ (by simp))
      rw [heq] at hslash
      simp at hslash

theorem joinComps_append_one : ∀ (comps : List String) (name : String), comps ≠ [] →
    joinComps (comps ++ [name]) = joinComps comps ++ "/" ++ name := by
  intro comps
  induction comps with
  | nil => intro name h; exact absurd rfl h
  | cons c rest ih =>
    intro name _
    cases rest with
    | nil => rfl
    | cons r rs =>
      have h1 : joinComps ((c :: r :: rs) ++ [name])
          = c ++ "/" ++ joinComps ((r :: rs) ++ [name]) := rfl
      have h2 : joinComps (c :: r :: rs) = c ++ "/" ++ joinComps (r :: rs) := rfl
      rw [h1, ih name (by simp), h2]
      simp [String.append_assoc]

theorem joinComps_no_bs : ∀ comps : List String,
    (∀ s ∈ comps, ∀ c ∈ s.data, c ≠ '\\') →
    ∀ c ∈ (joinComps comps).data, c ≠ '\\' := by
  intro comps
  induction comps with
  | nil => intro _ c hc; simp [joinComps] at hc
  | cons a rest ih =>
    intro hclean c hc
    have ha := hclean a (List.mem_cons_self a rest)
    cases rest with
    | nil => exact ha c hc
    | cons r rs =>
      have hjoin : joinComps (a :: r :: rs) = a ++ "/" ++ joinComps (r :: rs) := rfl
      rw [hjoin, String.data_append, String.data_append] at hc
      rcases List.mem_append.mp hc with hc1 | hc2
      · rcases List.mem_append.mp hc1 with hc3 | hc4
        · exact ha c hc3
        · simp at hc4
          rw [hc4]
          decide
      · exact ih (fun s hs => hclean s (List.mem_cons_of_mem a hs)) c hc2

theorem replaceBS_eq_self (s : String) (h : ∀ c ∈ s.data, c ≠ '\\') :
    replaceBS s = s := by
  apply String.ext
  show s.data.map (fun c => if c = '\\' then '/' else c) = s.data
  rw [List.map_congr_left (g := id) (fun c hc => by simp [h c hc]), List.map_id]

/-- Characters of the stem are characters of the filename. -/
theorem splitext_fst_chars (filename : String) :
    ∀ c ∈ (splitext filename).1.data, c ∈ filename.data := by
  unfold splitext
  cases h : lastIdxOf '.' filename.data with
  | none => intro c hc; exact hc
  | some i =>
    dsimp only
    by_cases hall : (filename.data.take i).all (fun c => c = '.') = true
    · rw [if_pos hall]; intro c hc; exact hc
    · rw [if_neg hall]; intro c hc; exact List.mem_of_mem_take hc

/-- A file with a recognised extension has a nonempty extension. -/
theorem ext_ne_empty_of_supported (filename : String)
    (hsup : extSupported filename = true) : (splitext filename).2 ≠ "" := by
  intro h
  unfold extSupported at hsup
  rw [h] at hsup
  simp [lowerStr, SUPPORTED_EXTENSIONS] at hsup

/-- A file with a nonempty extension has a nonempty stem: `splitext`
    never splits when everything before the dot is dots. -/
theorem stem_ne_empty (filename : String)
    (hext : (splitext filename).2 ≠ "") : (splitext filename).1 ≠ "" := by
  unfold splitext at hext ⊢
  cases h : lastIdxOf '.' filename.data with
  | none => rw [h] at hext; exact absurd rfl hext
  | some i =>
    rw [h] at hext
    dsimp only at hext ⊢
    by_cases hall : (filename.data.take i).all (fun c => c = '.') = true
    · rw [if_pos hall] at hext; exact absurd rfl hext
    · rw [if_neg hall] at hext ⊢
      intro hstem
      apply hall
      have : filename.data.take i = [] := congrArg String.data hstem
      rw [this]
      rfl

/-- The thumbnail file name starts with a filename character, never a
    separator. -/
theorem thumbNameOf_head (cfg : Config) (filename : String)
    (hfn : ∀ c ∈ filename.data, c ≠ '/' ∧ c ≠ '\\')
    (hsup : extSupported filename = true) :
    (thumbNameOf cfg filename).data.head? ≠ some '/' := by
  have hstem := stem_ne_empty filename (ext_ne_empty_of_supported filename hsup)
  unfold thumbNameOf
  rw [String.data_append, List.head?_append_of_ne_nil _ (str_data_ne_nil hstem)]
  intro hh
  have hmem : '/' ∈ (splitext filename).1.data := List.mem_of_mem_head? (by rw [hh]; rfl)
  exact (hfn '/' (splitext_fst_chars filename '/' hmem)).1 rfl

/-- Characters of the thumbnail name are never backslashes. -/
theorem thumbNameOf_no_bs (cfg : Config) (filename : String)
    (hfn : ∀ c ∈ filename.data, c ≠ '/' ∧ c ≠ '\\')
    (hsup : extSupported filename = true) :
    ∀ c ∈ (thumbNameOf cfg filename).data, c ≠ '\\' := by
  intro c hc
  unfold thumbNameOf at hc
  rw [String.data_append] at hc
  rcases List.mem_append.mp hc with h1 | h2
  · exact (hfn c (splitext_fst_chars filename c h1)).2
  · unfold thumbExtOf at h2
    split at h2
    · simp at h2
      rcases h2 with rfl | rfl | rfl | rfl
      all_goals decide
    · have hmem : lowerStr (splitext filename).2 ∈ SUPPORTED_EXTENSIONS := by
        have h0 := hsup
        unfold extSupported at h0
        simpa using h0
      have hnb : ∀ e ∈ SUPPORTED_EXTENSIONS, ∀ c ∈ e.data, c ≠ '\\' := by decide
      exact hnb _ hmem c h2

/-- The code's thumbnail path coincides with the spec's description of it
    on clean path components. -/
theorem thumbPathOf_spec_eq (cfg : Config) (comps : List String) (filename : String)
    (hTF : pathCleanName cfg.thumbFolder)
    (hcomps : ∀ s ∈ comps, pathCleanName s ∧ s ≠ ".")
    (hfn : ∀ c ∈ filename.data, c ≠ '/' ∧ c ≠ '\\')
    (hsup : extSupported filename = true) :
    thumbPathOf cfg comps filename = specThumbPath cfg comps filename := by
  have hname_head := thumbNameOf_head cfg filename hfn hsup
  have hspec : specThumbPath cfg comps filename
      = joinComps (cfg.thumbFolder :: (comps ++ [thumbNameOf cfg filename])) := rfl
  cases comps with
  | nil =>
    have hrel : relSubdirOf ([] : List String) = "." := rfl
    unfold thumbPathOf
    rw [hrel, if_pos rfl, hspec]
    rw [pyJoin_clean _ _ hTF.1 (clean_last hTF) hname_head]
    rfl
  | cons c rest =>
    have hcl : ∀ s ∈ c :: rest, pathCleanName s := fun s hs => (hcomps s hs).1
    have hjc := joinComps_clean (c :: rest) (by simp) hcl
    have hrel : relSubdirOf (c :: rest) = joinComps (c :: rest) := rfl
    have hnotdot : joinComps (c :: rest) ≠ "." :=
      joinComps_ne_dot (c :: rest) (by simp) hcomps
    unfold thumbPathOf
    rw [hrel, if_neg hnotdot]
    rw [pyJoin_clean _ _ hTF.1 (clean_last hTF) hjc.2.1]
    have houter : (cfg.thumbFolder ++ "/" ++ joinComps (c :: rest)).data.getLast?
        = (joinComps (c :: rest)).data.getLast? := by
      rw [String.data_append]
      exact List.getLast?_append_of_ne_nil _ (str_data_ne_nil hjc.1)
    rw [pyJoin_clean _ _ (append_ne_empty_right _ _ hjc.1)
      (by rw [houter]; exact hjc.2.2) hname_head]
    rw [hspec]
    have h1 : (cfg.thumbFolder :: ((c :: rest) ++ [thumbNameOf cfg filename]))
        = cfg.thumbFolder :: (c :: (rest ++ [thumbNameOf cfg filename]))  := rfl
    have h2 : joinComps (cfg.thumbFolder :: (c :: (rest ++ [thumbNameOf cfg filename])))
        = cfg.thumbFolder ++ "/" ++ joinComps (c :: (rest ++ [thumbNameOf cfg filename])) := rfl
    rw [h1, h2]
    have h3 : (c :: (rest ++ [thumbNameOf cfg filename]))
        = (c :: rest) ++ [thumbNameOf cfg filename] := rfl
    rw [h3, joinComps_append_one (c :: rest) _ (by simp)]
    simp [String.append_assoc]

/-- On clean inputs the backslash replacement is the identity on the
    thumbnail path. -/
theorem replaceBS_thumbPath (cfg : Config) (comps : List String) (filename : String)
    (hTF : pathCleanName cfg.thumbFolder)
    (hcomps : ∀ s ∈ comps, pathCleanName s ∧ s ≠ ".")
    (hfn : ∀ c ∈ filename.data, c ≠ '/' ∧ c ≠ '\\')
    (hsup : extSupported filename = true) :
    replaceBS (thumbPathOf cfg comps filename) = thumbPathOf cfg comps filename := by
  rw [thumbPathOf_spec_eq cfg comps filename hTF hcomps hfn hsup]
  apply replaceBS_eq_self
  apply joinComps_no_bs
  intro s hs
  rcases List.mem_cons.mp hs with rfl | hs2
  · exact fun c hc => (hTF.2 c hc).2
  · rcases List.mem_append.mp hs2 with hs3 | hs4
    · exact fun c hc => (((hcomps s hs3).1).2 c hc).2
    · simp at hs4
      rw [hs4]
      exact thumbNameOf_no_bs cfg filename hfn hsup

/-! ## Lemmas about the calendar conversion -/

theorem daysInYear_ge (y : Nat) : 365 ≤ daysInYear y := by
  unfold daysInYear; split <;> omega

theorem civilAux_spec :
    ∀ (fuel y d : Nat), d ≤ 365 * fuel + 364 → 1970 ≤ y →
      daysBeforeYears ((civilAux fuel y d).1 - 1970) + (civilAux fuel y d).2
        = daysBeforeYears (y - 1970) + d
      ∧ (civilAux fuel y d).2 < daysInYear (civilAux fuel y d).1
      ∧ y ≤ (civilAux fuel y d).1 := by
  intro fuel
  induction fuel with
  | zero =>
    intro y d hd hy
    refine ⟨rfl, ?_, le_refl y⟩
    have := daysInYear_ge y
    simpa [civilAux] using by omega
  | succ fuel ih =>
    intro y d hd hy
    have h365 := daysInYear_ge y
    simp only [civilAux]
    by_cases hlt : d < daysInYear y
    · rw [if_pos hlt]
      exact ⟨rfl, hlt, le_refl y⟩
    · rw [if_neg hlt]
      have hrec := ih (y + 1) (d - daysInYear y) (by omega) (by omega)
      have hstep : daysBeforeYears (y + 1 - 1970) =
          daysBeforeYears (y - 1970) + daysInYear y := by
        have h1 : y + 1 - 1970 = (y - 1970) + 1 := by omega
        have h2 : 1970 + (y - 1970) = y := by omega
        rw [h1, daysBeforeYears, h2]
      refine ⟨?_, hrec.2.1, by omega⟩
      rw [hrec.1, hstep]
      omega

theorem daysBeforeYears_mono : ∀ a b : Nat, a ≤ b →
    daysBeforeYears a ≤ daysBeforeYears b := by
  intro a b
  induction b with
  | zero =>
    intro h
    have ha : a = 0 := by omega
    rw [ha]
  | succ k ih =>
    intro h
    rcases Nat.lt_or_ge a (k + 1) with h1 | h1
    · have := ih (by omega)
      rw [daysBeforeYears]
      omega
    · have : a = k + 1 := by omega
      rw [this]

/-- Closed form for the day count: 365 per year plus the leap days
    accumulated since 1970. -/
theorem daysBeforeYears_closed : ∀ n : Nat,
    daysBeforeYears n
      = 365 * n + ((1969 + n) / 4 - 492) - ((1969 + n) / 100 - 19)
        + ((1969 + n) / 400 - 4) := by
  intro n
  induction n with
  | zero => rfl
  | succ k ih =>
    have hstep : daysBeforeYears (k + 1)
        = daysBeforeYears k + daysInYear (1970 + k) := rfl
    rw [hstep, ih]
    unfold daysInYear
    cases h : isLeap (1970 + k) with
    | false =>
      rw [if_neg (by simp [h])]
      simp only [isLeap, Bool.or_eq_false_iff, Bool.and_eq_false_iff,
        beq_eq_false_iff_ne, bne_eq_false_iff_eq, ne_eq] at h
      omega
    | true =>
      rw [if_pos (by simp [h])]
      simp only [isLeap, Bool.or_eq_true, Bool.and_eq_true,
        beq_iff_eq, bne_iff_ne, ne_eq] at h
      omega

theorem daysBeforeYears_8030 : daysBeforeYears 8030 = 2932897 := by
  rw [daysBeforeYears_closed]

theorem monthLen_le (leap : Bool) (m : Nat) : monthLen leap m ≤ 31 := by
  unfold monthLen
  split
  · split <;> omega
  · split <;> omega

theorem daysBeforeMonth_succ (leap : Bool) (m : Nat) (hm : 1 ≤ m) :
    daysBeforeMonth leap (m + 1) = daysBeforeMonth leap m + monthLen leap m := by
  match m, hm with
  | k + 1, _ => rfl

theorem daysBeforeMonth_13 (leap : Bool) :
    daysBeforeMonth leap 13 = if leap then 366 else 365 := by
  cases leap <;> rfl

theorem daysInYear_eq_dBM13 (y : Nat) :
    daysInYear y = daysBeforeMonth (isLeap y) 13 := by
  rw [daysBeforeMonth_13]
  rfl

theorem monthAux_spec :
    ∀ (fuel m : Nat) (leap : Bool) (d : Nat), 1 ≤ m → m + fuel = 12 →
      daysBeforeMonth leap m + d < daysBeforeMonth leap 13 →
      daysBeforeMonth leap (monthAux fuel m leap d).1 + (monthAux fuel m leap d).2
        = daysBeforeMonth leap m + d
      ∧ (monthAux fuel m leap d).2 < monthLen leap (monthAux fuel m leap d).1
      ∧ 1 ≤ (monthAux fuel m leap d).1 ∧ (monthAux fuel m leap d).1 ≤ 12 := by
  intro fuel
  induction fuel with
  | zero =>
    intro m leap d hm1 hm12 hbound
    have hm : m = 12 := by omega
    subst hm
    have h13 : daysBeforeMonth leap 13 = daysBeforeMonth leap 12 + monthLen leap 12 :=
      daysBeforeMonth_succ leap 12 (by omega)
    have hred : monthAux 0 12 leap d = (12, d) := rfl
    rw [hred]
    dsimp only
    exact ⟨rfl, by omega, by omega, by omega⟩
  | succ fuel ih =>
    intro m leap d hm1 hm12 hbound
    simp only [monthAux]
    by_cases hlt : d < monthLen leap m
    · rw [if_pos hlt]
      exact ⟨rfl, hlt, hm1, by omega⟩
    · rw [if_neg hlt]
      have hstep : daysBeforeMonth leap (m + 1)
          = daysBeforeMonth leap m + monthLen leap m :=
        daysBeforeMonth_succ leap m hm1
      have hrec := ih (m + 1) leap (d - monthLen leap m) (by omega) (by omega)
        (by rw [hstep]; omega)
      refine ⟨?_, hrec.2.1, by omega, hrec.2.2.2⟩
      rw [hrec.1, hstep]
      omega

/-- The calendar components the model computes for an in-range timestamp
    are well-formed and recombine to the original timestamp. -/
theorem epochToDate_spec (sec : Nat) (hsec : sec < 253402300800) :
    ∃ y mo d hh mi s,
      epochToDate sec = (y, mo, d, hh, mi, s)
      ∧ 1970 ≤ y ∧ y ≤ 9999 ∧ 1 ≤ mo ∧ mo ≤ 12 ∧ 1 ≤ d ∧ d ≤ 31
      ∧ hh < 24 ∧ mi < 60 ∧ s < 60
      ∧ daysSinceEpoch y mo d * 86400 + hh * 3600 + mi * 60 + s = sec := by
  have hdays : sec / 86400 ≤ 2932896 := by omega
  rcases h1 : civilAux (sec / 86400) 1970 (sec / 86400) with ⟨y, doy⟩
  have hc := civilAux_spec (sec / 86400) 1970 (sec / 86400) (by omega) (le_refl _)
  rw [h1] at hc
  simp only at hc
  obtain ⟨hceq, hcdoy, hcy⟩ := hc
  have hy9999 : y ≤ 9999 := by
    by_contra hgt
    have h8030 : 8030 ≤ y - 1970 := by omega
    have := daysBeforeYears_mono 8030 (y - 1970) h8030
    rw [daysBeforeYears_8030] at this
    have h0 : daysBeforeYears (1970 - 1970) = 0 := rfl
    rw [h0] at hceq
    omega
  rcases h2 : monthAux 11 1 (isLeap y) doy with ⟨mo, dom⟩
  have hm := monthAux_spec 11 1 (isLeap y) doy (by omega) (by omega)
    (by
      have : daysBeforeMonth (isLeap y) 1 = 0 := rfl
      rw [this]
      rw [← daysInYear_eq_dBM13]
      omega)
  rw [h2] at hm
  simp only at hm
  obtain ⟨hmeq, hmdom, hmo1, hmo12⟩ := hm
  have hml := monthLen_le (isLeap y) mo
  refine ⟨y, mo, dom + 1, sec % 86400 / 3600, sec % 86400 % 3600 / 60, sec % 86400 % 60,
    ?_, by omega, hy9999, hmo1, hmo12, by omega, by omega, by omega, by omega, by omega, ?_⟩
  · simp only [epochToDate, h1, h2]
  · have hdb1 : daysBeforeMonth (isLeap y) 1 = 0 := rfl
    unfold daysSinceEpoch
    have h0 : daysBeforeYears (1970 - 1970) = 0 := rfl
    rw [h0] at hceq
    rw [hdb1] at hmeq
    have hadd : dom + 1 - 1 = dom := by omega
    rw [hadd]
    omega

theorem isDigitChar_digitOf {k : Nat} (hk : k < 10) : isDigitChar (digitOf k) = true := by
  revert hk
  revert k
  decide

theorem digitVal_digitOf {k : Nat} (hk : k < 10) : digitVal (digitOf k) = k := by
  revert hk
  revert k
  decide

/-- The strftime model produces exactly the twenty characters
    `YYYY-MM-DDTHH:MM:SSZ` for the computed calendar components. -/
theorem formatUtc_data (sec y mo d hh mi s : Nat)
    (heq : epochToDate sec = (y, mo, d, hh, mi, s)) :
    (formatUtc sec).data
      = [digitOf (y / 10 / 10 / 10 % 10), digitOf (y / 10 / 10 % 10),
         digitOf (y / 10 % 10), digitOf (y % 10), '-',
         digitOf (mo / 10 % 10), digitOf (mo % 10), '-',
         digitOf (d / 10 % 10), digitOf (d % 10), 'T',
         digitOf (hh / 10 % 10), digitOf (hh % 10), ':',
         digitOf (mi / 10 % 10), digitOf (mi % 10), ':',
         digitOf (s / 10 % 10), digitOf (s % 10), 'Z'] := by
  unfold formatUtc
  rw [heq]
  rfl

/-- Parsing a twenty-character timestamp made of digit characters yields
    the recombined instant. -/
theorem parseIsoUtc_digits
    (a b c d e f g h i j k l m n : Nat)
    (ha : a < 10) (hb : b < 10) (hc : c < 10) (hd : d < 10) (he : e < 10)
    (hf : f < 10) (hg : g < 10) (hh : h < 10) (hi : i < 10) (hj : j < 10)
    (hk : k < 10) (hl : l < 10) (hm : m < 10) (hn : n < 10) :
    parseIsoUtc ⟨[digitOf a, digitOf b, digitOf c, digitOf d, '-',
      digitOf e, digitOf f, '-', digitOf g, digitOf h, 'T',
      digitOf i, digitOf j, ':', digitOf k, digitOf l, ':',
      digitOf m, digitOf n, 'Z']⟩
      = some (daysSinceEpoch (((a * 10 + b) * 10 + c) * 10 + d) (e * 10 + f)
          (g * 10 + h) * 86400 + (i * 10 + j) * 3600 + (k * 10 + l) * 60
          + (m * 10 + n)) := by
  unfold parseIsoUtc
  simp only [List.all_cons, List.all_nil,
    isDigitChar_digitOf ha, isDigitChar_digitOf hb, isDigitChar_digitOf hc,
    isDigitChar_digitOf hd, isDigitChar_digitOf he, isDigitChar_digitOf hf,
    isDigitChar_digitOf hg, isDigitChar_digitOf hh, isDigitChar_digitOf hi,
    isDigitChar_digitOf hj, isDigitChar_digitOf hk, isDigitChar_digitOf hl,
    isDigitChar_digitOf hm, isDigitChar_digitOf hn,
    Bool.and_self, Bool.and_true, Bool.true_and, if_true,
    digitVal_digitOf ha, digitVal_digitOf hb, digitVal_digitOf hc,
    digitVal_digitOf hd, digitVal_digitOf he, digitVal_digitOf hf,
    digitVal_digitOf hg, digitVal_digitOf hh, digitVal_digitOf hi,
    digitVal_digitOf hj, digitVal_digitOf hk, digitVal_digitOf hl,
    digitVal_digitOf hm, digitVal_digitOf hn]

/-- Formatting an in-range timestamp and parsing the result recovers the
    timestamp exactly. -/
theorem parse_format (sec : Nat) (h : sec < 253402300800) :
    parseIsoUtc (formatUtc sec) = some sec := by
  obtain ⟨y, mo, d, hh, mi, s, heq, hy1, hy2, hmo1, hmo2, hd1, hd2, hhh, hmi, hs, hsum⟩ :=
    epochToDate_spec sec h
  have hdata := formatUtc_data sec y mo d hh mi s heq
  have hstr : formatUtc sec
      = ⟨[digitOf (y / 10 / 10 / 10 % 10), digitOf (y / 10 / 10 % 10),
          digitOf (y / 10 % 10), digitOf (y % 10), '-',
          digitOf (mo / 10 % 10), digitOf (mo % 10), '-',
          digitOf (d / 10 % 10), digitOf (d % 10), 'T',
          digitOf (hh / 10 % 10), digitOf (hh % 10), ':',
          digitOf (mi / 10 % 10), digitOf (mi % 10), ':',
          digitOf (s / 10 % 10), digitOf (s % 10), 'Z']⟩ :=
    String.ext hdata
  rw [hstr]
  rw [parseIsoUtc_digits _ _ _ _ _ _ _ _ _ _ _ _ _ _
    (by omega) (by omega) (by omega) (by omega) (by omega) (by omega) (by omega)
    (by omega) (by omega) (by omega) (by omega) (by omega) (by omega) (by omega)]
  have e1 : ((y / 10 / 10 / 10 % 10 * 10 + y / 10 / 10 % 10) * 10
      + y / 10 % 10) * 10 + y % 10 = y := by omega
  have e2 : mo / 10 % 10 * 10 + mo % 10 = mo := by omega
  have e3 : d / 10 % 10 * 10 + d % 10 = d := by omega
  have e4 : hh / 10 % 10 * 10 + hh % 10 = hh := by omega
  have e5 : mi / 10 % 10 * 10 + mi % 10 = mi := by omega
  have e6 : s / 10 % 10 * 10 + s % 10 = s := by omega
  rw [e1, e2, e3, e4, e5, e6, hsum]

/-! ## Claim theorems -/

/-- C1: the spec says a corrupted image among valid files yields exactly
    one `errored` count and the run continues.  In the code,
    `make_thumbnail` returns `False` from its exception handler (line
    123), so `scan_and_generate` counts a decode failure as `skipped` and
    its `errors` counter (line 176) can never leave zero; the run does
    continue and all records are still produced.  This theorem exhibits
    the divergence: the error counter is identically zero on every run,
    and on a root with one corrupted file between two valid ones the
    counts are created 2 / skipped 1 / errors 0 while all three manifest
    records are still emitted. -/
theorem thumbnail_error_outcome_unreachable :
    (∀ (cfg : Config) (root : Option FsChildren) (disk : List String),
      (scan_and_generate cfg root disk).errors = 0)
    ∧ (scan_and_generate defaultConfig (some treeWithCorrupt) []).created = 2
    ∧ (scan_and_generate defaultConfig (some treeWithCorrupt) []).skipped = 1
    ∧ (scan_and_generate defaultConfig (some treeWithCorrupt) []).errors = 0
    ∧ (scan_and_generate defaultConfig (some treeWithCorrupt) []).entries.map Record.file
        = ["images/bad.jpg", "images/good1.jpg", "images/good2.png"] := by
  refine ⟨?_, by decide, by decide, by decide, by decide⟩
  intro cfg root disk
  cases root with
  | none => rfl
  | some children => exact foldl_stepFile_errors cfg (walkFiles children) _

/-- C2: under the default configuration, tag derivation on
    `"cute-cat 2024.jpg"` gives `["cute", "cat"]`, on `"IMG_0001.png"`
    gives `[]`, and on `"a.jpg"` gives `[]`. -/
theorem default_tag_examples :
    filename_to_tags defaultConfig "cute-cat 2024.jpg" = ["cute", "cat"]
    ∧ filename_to_tags defaultConfig "IMG_0001.png" = []
    ∧ filename_to_tags defaultConfig "a.jpg" = [] := by
  decide

/-- C3: the scanner keeps only files whose lowercased extension is in the
    allow-list (first conjunct), sorts file names and subdirectory names
    lexicographically before visiting them (second and third conjuncts,
    about the very sort the walk applies at each level; the fourth
    conjunct pins down that the walk processes exactly the sorted
    filtered files of a directory followed by its sorted subdirectories),
    and on the concrete root `{b.png, a.png, a.txt}` yields exactly the
    two supported records in order `a.png`, `b.png`, identically for two
    opposite filesystem iteration orders. -/
theorem scan_sorted_and_filtered :
    (∀ (fuel : Nat) (path : List String) (t : FsEntry) (f : List String × String × FileInfo),
      f ∈ walkAux fuel path t → extSupported f.2.1 = true)
    ∧ (∀ l : List (String × FileInfo),
        List.Pairwise (fun a b => strLe a.1 b.1 = true) (sortPairs l))
    ∧ (∀ l : List (String × FsEntry),
        List.Pairwise (fun a b => strLe a.1 b.1 = true) (sortPairs l))
    ∧ (∀ (fuel : Nat) (path : List String) (children : FsChildren),
        walkAux (fuel + 1) path (.dir children)
          = ((sortPairs (childFiles children.toList)).filter
              (fun p => extSupported p.1)).map (fun p => (path, p.1, p.2))
            ++ (sortPairs (childDirs children.toList)).flatMap
              (fun p => walkAux fuel (path ++ [p.1]) p.2))
    ∧ (walkFiles treeAlpha).map (fun f => f.2.1) = ["a.png", "b.png"]
    ∧ walkFiles treeAlphaPerm = walkFiles treeAlpha
    ∧ (scan_and_generate defaultConfig (some treeAlpha) []).entries.map Record.file
        = ["images/a.png", "images/b.png"] := by
  exact ⟨walkAux_mem_supported, fun l => sortPairs_sorted l, fun l => sortPairs_sorted l,
    fun _ _ _ => rfl, by decide, by decide, by decide⟩

theorem scan_sorted_and_filtered_witness : extSupported "a.png" = true :=
  scan_sorted_and_filtered.1 (entryDepth (FsEntry.dir treeAlpha)) [] (.dir treeAlpha)
    ([], "a.png", ⟨0, 0, true⟩) (by decide)

/-- C4: a missing root or a scan matching no files yields zero records,
    `main` leaves the manifest file exactly as it was (it never writes),
    and the empty result is reported by a distinct console message. -/
theorem empty_scan_preserves_manifest (cfg : Config) (root : Option FsChildren)
    (disk : List String) (prior : Option (List (List (String × JVal))))
    (h : root = none ∨ ∃ children, root = some children ∧ walkFiles children = []) :
    (scan_and_generate cfg root disk).entries = []
    ∧ (main cfg root disk prior).manifestAfter = prior
    ∧ RunMsg.noImagesFound ∈ (main cfg root disk prior).msgs := by
  rcases h with rfl | ⟨children, rfl, hw⟩
  · exact ⟨rfl, by simp [main, scan_and_generate], by simp [main, scan_and_generate]⟩
  · have he : (scan_and_generate cfg (some children) disk).entries = [] := by
      rw [scan_entries_eq, hw]
      rfl
    exact ⟨he, by simp [main, he], by simp [main, he]⟩

theorem empty_scan_preserves_manifest_witness :
    (scan_and_generate defaultConfig none []).entries = []
    ∧ (main defaultConfig none [] (some [[("file", JVal.jstr "x")]])).manifestAfter
        = some [[("file", JVal.jstr "x")]]
    ∧ RunMsg.noImagesFound
        ∈ (main defaultConfig none [] (some [[("file", JVal.jstr "x")]])).msgs :=
  empty_scan_preserves_manifest defaultConfig none [] (some [[("file", JVal.jstr "x")]])
    (Or.inl rfl)

/-- C5: with overwrite off and every thumbnail already on disk,
    `make_thumbnail` is a skipped no-op for every file: nothing is
    created, the skipped count equals the number of existing thumbnails
    (one per collected file), the disk is untouched, and the manifest
    records are still all produced. -/
theorem rerun_with_existing_thumbs_skips_all (cfg : Config) (children : FsChildren)
    (disk : List String) (hov : cfg.thumbOverwrite = false)
    (hall : ∀ f ∈ walkFiles children,
      disk.contains (thumbPathOf cfg f.1 f.2.1) = true) :
    (∀ (d : List String) (dec : Bool) (tp : String), d.contains tp = true →
      make_thumbnail cfg d dec tp = (false, d) ∧ classifyResult false = .skipped)
    ∧ (scan_and_generate cfg (some children) disk).created = 0
    ∧ (scan_and_generate cfg (some children) disk).skipped = (walkFiles children).length
    ∧ (scan_and_generate cfg (some children) disk).disk = disk
    ∧ (scan_and_generate cfg (some children) disk).entries.length
        = (walkFiles children).length := by
  refine ⟨fun d dec tp hex => ⟨make_thumbnail_skip cfg d dec tp hov hex, rfl⟩, ?_⟩
  have hscan : scan_and_generate cfg (some children) disk
      = (walkFiles children).foldl (stepFile cfg) ⟨[], 0, 0, 0, disk⟩ := rfl
  have h := foldl_stepFile_all_skipped cfg hov (walkFiles children)
    ⟨[], 0, 0, 0, disk⟩ hall
  have hlen : ((walkFiles children).foldl (stepFile cfg) ⟨[], 0, 0, 0, disk⟩).entries.length
      = (walkFiles children).length := by
    rw [foldl_stepFile_entries]
    simp
  rw [hscan]
  exact ⟨h.1, by rw [h.2.1]; simp, h.2.2, hlen⟩

theorem rerun_with_existing_thumbs_skips_all_witness :
    (make_thumbnail defaultConfig ["thumbs/a.jpg", "thumbs/b.jpg"] true "thumbs/a.jpg"
        = (false, ["thumbs/a.jpg", "thumbs/b.jpg"])
      ∧ classifyResult false = .skipped)
    ∧ (scan_and_generate defaultConfig (some treeAlpha)
        ["thumbs/a.jpg", "thumbs/b.jpg"]).created = 0
    ∧ (scan_and_generate defaultConfig (some treeAlpha)
        ["thumbs/a.jpg", "thumbs/b.jpg"]).skipped = (walkFiles treeAlpha).length
    ∧ (scan_and_generate defaultConfig (some treeAlpha)
        ["thumbs/a.jpg", "thumbs/b.jpg"]).disk = ["thumbs/a.jpg", "thumbs/b.jpg"]
    ∧ (scan_and_generate defaultConfig (some treeAlpha)
        ["thumbs/a.jpg", "thumbs/b.jpg"]).entries.length
        = (walkFiles treeAlpha).length :=
  have h := rerun_with_existing_thumbs_skips_all defaultConfig treeAlpha
    ["thumbs/a.jpg", "thumbs/b.jpg"] rfl (by decide)
  ⟨h.1 ["thumbs/a.jpg", "thumbs/b.jpg"] true "thumbs/a.jpg" (by decide),
    h.2.1, h.2.2.1, h.2.2.2.1, h.2.2.2.2⟩

/-- C6: a record's `date` field is the file's modification time formatted
    as an ISO-8601 UTC timestamp with second precision (the microsecond
    remainder of the mtime is dropped), and parsing it back as UTC
    recovers exactly the whole-second mtime, for any timestamp within
    `datetime`'s representable years. -/
theorem record_date_roundtrip (cfg : Config) (comps : List String) (filename : String)
    (info : FileInfo) (h : info.mtimeSec < 253402300800) :
    (recordOf cfg comps filename info).date = formatUtc info.mtimeSec
    ∧ parseIsoUtc ((recordOf cfg comps filename info).date) = some info.mtimeSec := by
  refine ⟨rfl, ?_⟩
  have hd : (recordOf cfg comps filename info).date = formatUtc info.mtimeSec := rfl
  rw [hd]
  exact parse_format info.mtimeSec h

theorem record_date_roundtrip_witness :
    (recordOf defaultConfig [] "x.jpg" ⟨86461, 123456, true⟩).date = formatUtc 86461
    ∧ parseIsoUtc ((recordOf defaultConfig [] "x.jpg" ⟨86461, 123456, true⟩).date)
        = some 86461 :=
  record_date_roundtrip defaultConfig [] "x.jpg" ⟨86461, 123456, true⟩ (by decide)

/-- C7: the `thumb` field of every record equals the spec's description
    of the thumbnail path — the thumbnail root, the file's subdirectory
    components mirrored, and the same base filename with the extension
    replaced by `.jpg` under force-JPEG and kept (lowercased) otherwise —
    for well-formed path components as a real filesystem produces. -/
theorem thumb_path_matches_spec (cfg : Config) (comps : List String)
    (filename : String) (info : FileInfo)
    (hTF : pathCleanName cfg.thumbFolder)
    (hcomps : ∀ s ∈ comps, pathCleanName s ∧ s ≠ ".")
    (hfn : ∀ c ∈ filename.data, c ≠ '/' ∧ c ≠ '\\')
    (hsup : extSupported filename = true) :
    (recordOf cfg comps filename info).thumb = specThumbPath cfg comps filename := by
  have ht : (recordOf cfg comps filename info).thumb
      = replaceBS (thumbPathOf cfg comps filename) := rfl
  rw [ht, replaceBS_thumbPath cfg comps filename hTF hcomps hfn hsup,
    thumbPathOf_spec_eq cfg comps filename hTF hcomps hfn hsup]

theorem thumb_path_matches_spec_witness :
    (recordOf defaultConfig ["z"] "Pic-1.JPG" ⟨0, 0, true⟩).thumb
      = specThumbPath defaultConfig ["z"] "Pic-1.JPG" :=
  thumb_path_matches_spec defaultConfig ["z"] "Pic-1.JPG" ⟨0, 0, true⟩
    (by decide) (by decide) (by decide) (by decide)

/-- C8: when any file matched, the manifest written by `main` is the
    array of one JSON object per collected file, in walk order, with the
    fields in the order `file`, `thumb`, `date`, `tags`. -/
theorem manifest_array_shape (cfg : Config) (children : FsChildren)
    (disk : List String) (prior : Option (List (List (String × JVal))))
    (hne : walkFiles children ≠ []) :
    (main cfg (some children) disk prior).manifestAfter
      = some ((walkFiles children).map
          (fun f => recordPairs (recordOf cfg f.1 f.2.1 f.2.2)))
    ∧ ∀ arr, (main cfg (some children) disk prior).manifestAfter = some arr →
        arr.length = (walkFiles children).length
        ∧ ∀ o ∈ arr, o.map Prod.fst = ["file", "thumb", "date", "tags"] := by
  have he := scan_entries_eq cfg children disk
  have hnonempty : ¬((scan_and_generate cfg (some children) disk).entries.isEmpty = true) := by
    rw [he]
    simpa using hne
  have hmain : (main cfg (some children) disk prior).manifestAfter
      = some ((scan_and_generate cfg (some children) disk).entries.map recordPairs) := by
    unfold main
    rw [if_neg hnonempty]
  constructor
  · rw [hmain, he, List.map_map]
    rfl
  · intro arr harr
    rw [hmain, he, List.map_map] at harr
    have harr2 := Option.some.inj harr
    constructor
    · rw [← harr2]
      simp
    · intro o ho
      rw [← harr2] at ho
      obtain ⟨f, _, rfl⟩ := List.mem_map.mp ho
      rfl

theorem manifest_array_shape_witness :
    (main defaultConfig (some treeAlpha) [] none).manifestAfter
      = some ((walkFiles treeAlpha).map
          (fun f => recordPairs (recordOf defaultConfig f.1 f.2.1 f.2.2))) :=
  (manifest_array_shape defaultConfig treeAlpha [] none (by decide)).1

/-- C9: tag derivation is a pure deterministic function of the filename
    and the configuration: equal inputs give equal outputs, and the
    output in fact depends only on the filename's stem. -/
theorem tag_derivation_deterministic :
    (∀ (cfg cfg' : Config) (fn fn' : String), cfg = cfg' → fn = fn' →
      filename_to_tags cfg fn = filename_to_tags cfg' fn')
    ∧ ∀ (cfg : Config) (s t : String), (splitext s).1 = (splitext t).1 →
        filename_to_tags cfg s = filename_to_tags cfg t := by
  constructor
  · intro cfg cfg' fn fn' h1 h2
    rw [h1, h2]
  · intro cfg s t h
    unfold filename_to_tags
    rw [h]

theorem tag_derivation_deterministic_witness :
    filename_to_tags defaultConfig "cute-cat 2024.jpg"
      = filename_to_tags defaultConfig "cute-cat 2024.jpg"
    ∧ filename_to_tags defaultConfig "holiday.jpg"
      = filename_to_tags defaultConfig "holiday.png" :=
  ⟨tag_derivation_deterministic.1 defaultConfig defaultConfig _ _ rfl rfl,
    tag_derivation_deterministic.2 defaultConfig "holiday.jpg" "holiday.png" (by decide)⟩

/-- C10: every collected file contributes exactly one record (the entry
    list is the walk list mapped through the record builder), and each
    record's `thumb` field is present and nonempty regardless of the
    thumbnail outcome.  The concrete conjunct shows a record whose
    thumbnail failed: its `thumb` names `thumbs/bad.jpg` although the
    final disk only holds the two successfully created thumbnails. -/
theorem one_record_per_file_with_thumb (cfg : Config) (children : FsChildren)
    (disk : List String) :
    (scan_and_generate cfg (some children) disk).entries
      = (walkFiles children).map (fun f => recordOf cfg f.1 f.2.1 f.2.2)
    ∧ (∀ r ∈ (scan_and_generate cfg (some children) disk).entries, r.thumb ≠ "")
    ∧ (scan_and_generate defaultConfig (some treeWithCorrupt) []).entries.map
        Record.thumb = ["thumbs/bad.jpg", "thumbs/good1.jpg", "thumbs/good2.jpg"]
    ∧ (scan_and_generate defaultConfig (some treeWithCorrupt) []).disk
        = ["thumbs/good2.jpg", "thumbs/good1.jpg"] := by
  refine ⟨scan_entries_eq cfg children disk, ?_, by decide, by decide⟩
  intro r hr
  rw [scan_entries_eq] at hr
  obtain ⟨f, hf, rfl⟩ := List.mem_map.mp hr
  have hsup : extSupported f.2.1 = true := by
    unfold walkFiles at hf
    exact walkAux_mem_supported _ _ _ f hf
  have ht : (recordOf cfg f.1 f.2.1 f.2.2).thumb
      = replaceBS (thumbPathOf cfg f.1 f.2.1) := rfl
  rw [ht]
  exact replaceBS_ne_empty _ (thumbPathOf_ne_empty cfg f.1 f.2.1 hsup)

theorem one_record_per_file_with_thumb_witness :
    (recordOf defaultConfig [] "a.png" (⟨0, 0, true⟩ : FileInfo)).thumb ≠ "" :=
  (one_record_per_file_with_thumb defaultConfig treeAlpha []).2.1
    (recordOf defaultConfig [] "a.png" ⟨0, 0, true⟩) (by decide)

end GenImages
